import Mathlib

/-!
Shallow embedding of the retrieval core of the document-intelligence-system
repository: the text chunker (src/processors/text_chunker.py), the TF-IDF
vector store (src/search/vector_store.py) and the retriever
(src/search/retriever.py).  Character strings are modelled as `List Char`,
Python floats as `ℚ` (exact arithmetic), Python dicts holding chunk data as a
fixed-field structure, and fallible Python code (exceptions such as
`IndexError` / `ZeroDivisionError`) as `Option`-valued functions.  The sklearn
vectorizer and cosine routine are external numeric collaborators; they are
abstracted as a parameter structure `SkLib` carrying the one shape fact the
store relies on (one output row per input text).  Python's `list.sort`
(Timsort) is a stable sort, and a stable sort's output is uniquely determined
by the key order, so it is modelled by a stable insertion sort `sSort`.
`np.argsort` is likewise modelled as the stable ascending argsort (numpy's
default introsort is untied-deterministic and coincides with the stable order
on the small arrays at issue here).
-/

namespace DocIntel

/-- Python's whitespace class (the characters matched by `\s` / stripped by
`str.strip()` for ASCII text): space, tab, newline, carriage return,
vertical tab, form feed. -/
def isPySpace (c : Char) : Bool :=
  c = ' ' || c = '\t' || c = '\n' || c = '\r' || c = Char.ofNat 11 || c = Char.ofNat 12

/-- Python `str.strip()`: drop whitespace from both ends. -/
def pyStrip (l : List Char) : List Char :=
  ((l.dropWhile isPySpace).reverse.dropWhile isPySpace).reverse

/-- Python `str.lower()` (ASCII). -/
def pyLower (l : List Char) : List Char :=
  l.map Char.toLower

/-- Helper for `str.split()` with no separator: accumulate the current word
(reversed) while scanning. -/
def splitWsGo : List Char → List Char → List (List Char)
  | [], acc => if acc.isEmpty then [] else [acc.reverse]
  | c :: rest, acc =>
    if isPySpace c then
      if acc.isEmpty then splitWsGo rest [] else acc.reverse :: splitWsGo rest []
    else
      splitWsGo rest (c :: acc)

/-- Python `str.split()` with no arguments: split on whitespace runs,
dropping empty words. -/
def pySplitWs (l : List Char) : List (List Char) :=
  splitWsGo l []

/-- Python's substring test `needle in hay` for strings. -/
def pyIn (needle hay : List Char) : Bool :=
  (List.range (hay.length + 1)).any fun i =>
    decide ((hay.drop i).take needle.length = needle)

/-- Python `s[-k:]` for a nonnegative `k`: the last `k` characters — except
that `s[-0:]` is `s[0:]`, the whole string (the negative-zero slicing trap
that `text_chunker.py` line 72 is exposed to when `chunk_overlap = 0`). -/
def pyTailSlice (k : ℕ) (l : List Char) : List Char :=
  if k = 0 then l else l.drop (l.length - k)

/-- Python `l[:n]` for an `int` bound `n` (possibly negative): a nonnegative
bound takes the first `n` elements (clamped at the length); a negative bound
drops the last `-n` elements. -/
def pySliceTo (n : ℤ) {α : Type} (l : List α) : List α :=
  l.take (if 0 ≤ n then n.toNat else ((l.length : ℤ) + n).toNat)


/-! ### A stable insertion sort

`before x y = true` means "x may be placed before y".  `sInsert` walks the
already-sorted list and places `x` in front of the first `y` it may precede;
since in `sSort` the element being inserted originally occurred *before*
everything already sorted, using a non-strict `before` makes the sort stable.
A stable sort's output is uniquely determined by the key order, so this
faithfully models both Python's `list.sort` and a stable `np.argsort`. -/

def sInsert {α : Type} (before : α → α → Bool) (x : α) : List α → List α
  | [] => [x]
  | y :: ys => if before x y then x :: y :: ys else y :: sInsert before x ys

def sSort {α : Type} (before : α → α → Bool) : List α → List α
  | [] => []
  | x :: xs => sInsert before x (sSort before xs)


/-! ### Data model

A chunk is a Python dict created by `TextChunker._create_chunk` and then
extended with `chunk_id` / `document` by `chunk_document` and (on returned
search results) `relevance_score` by `Retriever.retrieve`.  It is modelled
as a record with the optional fields defaulted. -/

structure Chunk where
  text : List Char
  page_number : ℕ
  source : String
  start_position : ℤ
  char_count : ℕ
  word_count : ℕ
  chunk_id : ℕ := 0
  document : String := ""
  relevance_score : Option ℚ := none
deriving DecidableEq, Repr, Inhabited

structure PageData where
  page_number : ℕ
  text : List Char
deriving DecidableEq, Repr

structure DocumentData where
  file_name : String
  pages : List PageData
deriving DecidableEq, Repr

/-! ### Chunker (src/processors/text_chunker.py) -/

/-- Index of the last newline character of a list, if any. -/
def lastNewline : List Char → Option ℕ
  | [] => none
  | c :: rest =>
    match lastNewline rest with
    | some i => some (i + 1)
    | none => if c = '\n' then some 0 else none

/-- Length of the separator that the regex `\n\s*\n|\n\x7b2,\x7d` matches at
the head of `l` (leftmost match, greedy `\s*` with backtracking): a newline
followed by whitespace up to a later newline.  The second alternative is
subsumed by the first.  `none` when no separator starts here. -/
def sepLen : List Char → Option ℕ
  | '\n' :: rest =>
    (match lastNewline (rest.takeWhile isPySpace) with
     | some i => some (i + 2)
     | none => none)
  | _ => none

/-- Fuel-indexed scanner for `re.split` on the paragraph separator: cuts the
text at every separator occurrence.  With `fuel ≥ length` the fuel never
runs out. -/
def splitParasGo : ℕ → List Char → List Char → List (List Char)
  | _, [], acc => [acc.reverse]
  | 0, l, acc => [acc.reverse ++ l]
  | fuel + 1, c :: rest, acc =>
    match sepLen (c :: rest) with
    | some n => acc.reverse :: splitParasGo fuel (List.drop (n - 1) rest) []
    | none => splitParasGo fuel rest (c :: acc)

/-- Result of `re.split(r'\n\s*\n|\n\x7b2,\x7d', text)`. -/
def rawParagraphs (text : List Char) : List (List Char) :=
  splitParasGo text.length text []

/-- `TextChunker._split_into_paragraphs`: split on blank-line separators,
strip each part, drop empty parts, append `"\n\n"` to each retained part. -/
def splitIntoParagraphs (text : List Char) : List (List Char) :=
  (rawParagraphs text).filterMap fun p =>
    let s := pyStrip p
    if s.isEmpty then none else some (s ++ ['\n', '\n'])

/-- `TextChunker._create_chunk`. -/
def createChunk (text : List Char) (page_number : ℕ) (source : String)
    (start_pos : ℤ) : Chunk :=
  let t := pyStrip text
  { text := t
    page_number := page_number
    source := source
    start_position := start_pos
    char_count := t.length
    word_count := (pySplitWs t).length }

/-- The paragraph-accumulation loop of `TextChunker._chunk_page` (lines
59-79): returns the emitted chunks together with the final buffer and the
final running start offset. -/
def chunkPageGo (chunk_size chunk_overlap : ℕ) (page_number : ℕ) (source : String) :
    List (List Char) → List Char → ℤ → List Chunk × List Char × ℤ
  | [], cur, st => ([], cur, st)
  | para :: rest, cur, st =>
    if chunk_size < cur.length + para.length then
      let newCur :=
        if chunk_overlap < cur.length then pyTailSlice chunk_overlap cur ++ para else para
      let newSt := st + (newCur.length : ℤ) - (chunk_overlap : ℤ)
      let r := chunkPageGo chunk_size chunk_overlap page_number source rest newCur newSt
      (if (pyStrip cur).isEmpty then r.1
       else createChunk cur page_number source st :: r.1, r.2)
    else
      chunkPageGo chunk_size chunk_overlap page_number source rest (cur ++ para) st

/-- `TextChunker._chunk_page`: greedy paragraph accumulation, then a final
flush kept only when the stripped buffer reaches `min_chunk_size`. -/
def chunkPage (chunk_size chunk_overlap min_chunk_size : ℕ) (text : List Char)
    (page_number : ℕ) (source : String) : List Chunk :=
  let r := chunkPageGo chunk_size chunk_overlap page_number source
            (splitIntoParagraphs text) [] 0
  r.1 ++ (if min_chunk_size ≤ (pyStrip r.2.1).length then
            [createChunk r.2.1 page_number source r.2.2]
          else [])

/-- The id-assignment loop of `TextChunker.chunk_document` lines 41-45: the
counter starts at `start` and increases by one per emitted chunk. -/
def assignIds (document : String) (start : ℕ) : List Chunk → List Chunk
  | [] => []
  | c :: rest =>
      { c with chunk_id := start, document := document } :: assignIds document (start + 1) rest

/-- `TextChunker.chunk_document`: chunk every page, then assign `chunk_id`
starting from 0 for this document and set `document`. -/
def chunk_document (chunk_size chunk_overlap min_chunk_size : ℕ)
    (doc : DocumentData) : List Chunk :=
  assignIds doc.file_name 0
    ((doc.pages.map fun p =>
        chunkPage chunk_size chunk_overlap min_chunk_size p.text p.page_number doc.file_name).flatten)

/-- Configuration constants from config.py. -/
def CHUNK_SIZE : ℕ := 2000
def CHUNK_OVERLAP : ℕ := 300
def MIN_CHUNK_SIZE : ℕ := 100

/-- Module-level `chunk_documents`: a fresh default-configured `TextChunker`
chunks each document in turn and the per-document chunk lists are
concatenated. -/
def chunk_documents (documents : List DocumentData) : List Chunk :=
  (documents.map (chunk_document CHUNK_SIZE CHUNK_OVERLAP MIN_CHUNK_SIZE)).flatten

/-! ### Vector store (src/search/vector_store.py)

The sklearn `TfidfVectorizer` and `cosine_similarity` are external numeric
collaborators operating on floats; they are abstracted as a parameter
structure.  The only shape fact the store's code relies on is that
`fit_transform` returns one row per input text. -/

structure SkLib where
  fitTransform : List (List Char) → List (List ℚ)
  transform : List (List Char) → List Char → List ℚ
  cos : List ℚ → List ℚ → ℚ
  vocabSize : List (List Char) → ℕ
  fitTransform_length : ∀ ts, (fitTransform ts).length = ts.length

/-- The mutable state of a `VectorStore` object: the chunk list, the cached
vector matrix (`None` before the first successful build), the corpus the
vectorizer was last fitted on, and the `is_indexed` flag. -/
structure VectorStore where
  chunks : List Chunk
  vectors : Option (List (List ℚ))
  fitted : Option (List (List Char))
  is_indexed : Bool
deriving DecidableEq, Repr

/-- `VectorStore.__init__`. -/
def VectorStore.init : VectorStore :=
  { chunks := [], vectors := none, fitted := none, is_indexed := false }

/-- `VectorStore._build_index`: an empty chunk list returns silently (no
state change beyond whatever `add_chunks` already wrote); otherwise the
vectorizer is fitted on the chunk texts and `is_indexed` is set. -/
def buildIndex (L : SkLib) (s : VectorStore) : VectorStore :=
  if s.chunks.isEmpty then s
  else
    let texts := s.chunks.map (·.text)
    { s with vectors := some (L.fitTransform texts)
             fitted := some texts
             is_indexed := true }

/-- `VectorStore.add_chunks`: overwrite `self.chunks`, then `_build_index`. -/
def add_chunks (L : SkLib) (s : VectorStore) (chunks : List Chunk) : VectorStore :=
  buildIndex L { s with chunks := chunks }

/-- Stable ascending `np.argsort`: the indices of `xs` ordered by value,
equal values kept in index order. -/
def argsortAsc (xs : List ℚ) : List ℕ :=
  sSort (fun i j => decide (xs.getD i 0 ≤ xs.getD j 0)) (List.range xs.length)

/-- Python `dict.copy()` on a chunk dict: a fresh record with the same
fields (value-level identity; aliasing is analysed in the heap model below). -/
def copyChunk (c : Chunk) : Chunk := c

/-- The similarity row `cosine_similarity(query_vector, self.vectors)[0]`:
one cosine score per stored chunk vector. -/
def simsOf (L : SkLib) (s : VectorStore) (query : List Char) : List ℚ :=
  (s.vectors.getD []).map fun v => L.cos (L.transform (s.fitted.getD []) query) v

/-- The result-collection loop of `VectorStore.search` lines 75-81: walk the
selected indices, keep those whose similarity passes the threshold, append a
copy of the stored chunk.  `self.chunks[idx]` out of range is an
`IndexError`, modelled as `none`. -/
def collectResults (chunks : List Chunk) (sims : List ℚ) (threshold : ℚ) :
    List ℕ → Option (List (Chunk × ℚ))
  | [] => some []
  | idx :: rest =>
    if threshold ≤ sims.getD idx 0 then
      match chunks[idx]? with
      | none => none
      | some c =>
        match collectResults chunks sims threshold rest with
        | none => none
        | some r => some ((copyChunk c, sims.getD idx 0) :: r)
    else
      collectResults chunks sims threshold rest

/-- `VectorStore.search`: empty result on an unbuilt index, otherwise rank
all chunk vectors by cosine similarity (descending via reversed argsort),
truncate to `top_k` (Python slicing, so `top_k` may be negative), and filter
by the threshold while copying the chunks. -/
def search (L : SkLib) (s : VectorStore) (query : List Char) (top_k : ℤ)
    (threshold : ℚ) : Option (List (Chunk × ℚ)) :=
  if s.is_indexed = false then some []
  else
    let similarities := simsOf L s query
    let top_indices := pySliceTo top_k (argsortAsc similarities).reverse
    collectResults s.chunks similarities threshold top_indices

/-- `VectorStore.get_stats` (total_chunks, is_indexed, vocabulary_size,
distinct document count).  A pure read: no state change. -/
def get_stats (L : SkLib) (s : VectorStore) : ℕ × Bool × ℕ × ℕ :=
  (s.chunks.length,
   s.is_indexed,
   if s.is_indexed then L.vocabSize (s.fitted.getD []) else 0,
   ((s.chunks.map (·.document)).dedup).length)

/-! ### Retriever (src/search/retriever.py) -/

/-- The query-enhancement table of `Retriever._enhance_query` (a Python dict
iterated in insertion order). -/
def enhancements : List (List Char × List Char) :=
  [("address".toList, "address registered office location".toList),
   ("director".toList, "director board member officer".toList),
   ("kyc".toList, "kyc know your customer verification".toList),
   ("document".toList, "document form certificate".toList)]

/-- `Retriever._enhance_query`: on the first trigger term contained in the
lower-cased query, append that trigger's expansion (separated by a space);
otherwise return the query unchanged. -/
def enhanceQuery (query : List Char) : List Char :=
  match enhancements.find? (fun kv => pyIn kv.1 (pyLower query)) with
  | some kv => query ++ [' '] ++ kv.2
  | none => query

/-- `Retriever._rerank_results`: empty candidate lists pass through; else
each candidate gets `base + phrase_bonus + term_bonus + length_factor` with
the term bonus computed over the *set* of lower-cased query terms, and the
list is stably sorted by final score descending.  When the query has no
terms and candidates exist, `len(query_terms)` is 0 and the division raises
`ZeroDivisionError`, modelled as `none`. -/
def rerankResults (query : List Char) (results : List (Chunk × ℚ)) :
    Option (List (Chunk × ℚ)) :=
  if results.isEmpty then some results
  else
    let query_terms := (pySplitWs (pyLower query)).dedup
    if query_terms.length = 0 then none
    else
      let scored := results.map fun p =>
        let text_lower := pyLower p.1.text
        let phrase_bonus : ℚ := if pyIn (pyLower query) text_lower then 1/5 else 0
        let term_matches := (query_terms.filter (fun t => pyIn t text_lower)).length
        let term_bonus : ℚ := ((term_matches : ℚ) / (query_terms.length : ℚ)) * (1/10)
        let length_factor : ℚ := min ((p.1.char_count : ℚ) / 1000) 1 * (1/20)
        (p.1, p.2 + phrase_bonus + term_bonus + length_factor)
      some (sSort (fun a b => decide (b.2 ≤ a.2)) scored)

/-- `Retriever.retrieve`: enhance the query, over-fetch `max_results * 2`
candidates, optionally filter by document (Python truthiness: `None` and
`""` both skip the filter), rerank against the original query, truncate to
`max_results` (Python slicing), and attach `relevance_score`. -/
def retrieve (L : SkLib) (s : VectorStore) (query : List Char)
    (max_results : ℤ) (threshold : ℚ) (filter_document : Option String) :
    Option (List Chunk) :=
  match search L s (enhanceQuery query) (max_results * 2) threshold with
  | none => none
  | some results =>
    let results :=
      match filter_document with
      | some d => if d = "" then results else results.filter fun p => decide (p.1.document = d)
      | none => results
    match rerankResults query results with
    | none => none
    | some reranked =>
      some ((pySliceTo max_results reranked).map fun p =>
        { p.1 with relevance_score := some p.2 })

/-! ### Concrete external-library instances used by witnesses and
counterexamples.  Any `SkLib` is admissible; these are the simplest ones
realising the similarity patterns the statements need. -/

/-- Every text maps to the same unit pattern; every cosine is 1/2 (as two
identical texts against any query). -/
def LHalf : SkLib :=
  { fitTransform := fun ts => ts.map fun _ => [1]
    transform := fun _ _ => [1]
    cos := fun _ _ => 1/2
    vocabSize := fun _ => 1
    fitTransform_length := fun ts => by simp }

/-- Every cosine is 0 (as a query with no vocabulary overlap, e.g. the empty
query whose vector is all zeros). -/
def LZero : SkLib :=
  { fitTransform := fun ts => ts.map fun _ => [1]
    transform := fun _ _ => [0]
    cos := fun _ _ => 0
    vocabSize := fun _ => 1
    fitTransform_length := fun ts => by simp }

/-! ### Specification-side definitions

These follow the wording of the specification (to be compared with the
definitions above, which follow the source). -/

/-- Order demanded of search results: similarity descending, ties broken by
original chunk position descending (`descLexBefore sims i j` = "i may come
before j"). -/
def descLexBefore (sims : List ℚ) (i j : ℕ) : Bool :=
  decide (sims.getD j 0 < sims.getD i 0 ∨ (sims.getD i 0 = sims.getD j 0 ∧ j ≤ i))

/-- Ascending companion order: similarity ascending, ties by position
ascending (the order a stable ascending argsort realises on `range n`). -/
def ascLexBefore (sims : List ℚ) (i j : ℕ) : Bool :=
  decide (sims.getD i 0 < sims.getD j 0 ∨ (sims.getD i 0 = sims.getD j 0 ∧ i ≤ j))

/-- All chunk positions ranked best-first: similarity descending, ties by
position descending. -/
def specRanked (sims : List ℚ) : List ℕ :=
  sSort (descLexBefore sims) (List.range sims.length)

/-- Reference search result demanded by the (amended) specification: among
the `top_k` best-ranked positions, exactly those whose similarity reaches
the threshold, in rank order, as copies of the stored chunks paired with
their similarity. -/
def specSearch (chunks : List Chunk) (sims : List ℚ) (top_k : ℕ)
    (threshold : ℚ) : List (Chunk × ℚ) :=
  ((specRanked sims).take top_k).filterMap fun i =>
    if threshold ≤ sims.getD i 0 then
      some (copyChunk (chunks.getD i default), sims.getD i 0)
    else none

/-- Phrase bonus as worded by the spec: 0.2 exactly when the lower-cased
original query appears verbatim in the chunk text. -/
def specPhraseBonus (query text_lower : List Char) : ℚ :=
  if pyIn (pyLower query) text_lower then 1/5 else 0

/-- Term bonus as worded by the claim: 0.1 times the fraction of
whitespace-split lower-cased query terms (counted with multiplicity)
appearing as substrings of the chunk text. -/
def specTermBonusAll (query text_lower : List Char) : ℚ :=
  (1/10) * (((pySplitWs (pyLower query)).filter fun t => pyIn t text_lower).length : ℚ)
    / ((pySplitWs (pyLower query)).length : ℚ)

/-- Term bonus as the code computes it: 0.1 times the fraction of
*distinct* whitespace-split lower-cased query terms appearing as substrings
of the chunk text. -/
def specTermBonusDistinct (query text_lower : List Char) : ℚ :=
  (1/10) * ((((pySplitWs (pyLower query)).dedup.filter fun t => pyIn t text_lower).length : ℚ)
    / (((pySplitWs (pyLower query)).dedup.length : ℚ)))

/-- Length factor as worded by the spec: 0.05 × min(char_count / 1000, 1). -/
def specLengthFactor (c : Chunk) : ℚ :=
  (1/20) * min ((c.char_count : ℚ) / 1000) 1

/-- Final rerank score per the claim with the term bonus over distinct
terms. -/
def specFinalScoreDistinct (query : List Char) (c : Chunk) (base : ℚ) : ℚ :=
  base + specPhraseBonus query (pyLower c.text)
       + specTermBonusDistinct query (pyLower c.text)
       + specLengthFactor c

/-- Final rerank score literally as the claim words it (term fraction over
the whitespace-split term list, duplicates counted). -/
def specFinalScoreAll (query : List Char) (c : Chunk) (base : ℚ) : ℚ :=
  base + specPhraseBonus query (pyLower c.text)
       + specTermBonusAll query (pyLower c.text)
       + specLengthFactor c

/-! ### Heap model of chunk dicts

Python chunk dicts are heap objects; `search` returns `.copy()`-ed dicts
and `retrieve` then mutates the copies in place
(`chunk['relevance_score'] = score`).  To reason about aliasing this renders
the same pipeline with explicit addresses into a heap (a list of chunk
records indexed by position). -/

structure HeapStore where
  heap : List Chunk
  chunkAddrs : List ℕ
  vectors : Option (List (List ℚ))
  fitted : Option (List (List Char))
  is_indexed : Bool
deriving DecidableEq, Repr

/-- Heap read (addresses produced by the model are always in range). -/
def hget (heap : List Chunk) (a : ℕ) : Chunk :=
  heap.getD a default

/-- Allocate one fresh cell per selected result, holding the copy made by
`self.chunks[idx].copy()`; returns the extended heap and the result list of
(address, similarity) pairs. -/
def allocCopies (heap : List Chunk) : List (Chunk × ℚ) → List Chunk × List (ℕ × ℚ)
  | [] => (heap, [])
  | (c, sc) :: rest =>
    let r := allocCopies (heap ++ [copyChunk c]) rest
    (r.1, (heap.length, sc) :: r.2)

/-- `VectorStore.search` at heap level: same selection as `search`, but the
returned chunks are fresh heap cells.  The heap is returned even on error
(`none` result): a failed call may have allocated garbage copies but never
touches existing cells. -/
def searchH (L : SkLib) (st : HeapStore) (query : List Char) (top_k : ℤ)
    (threshold : ℚ) : List Chunk × Option (List (ℕ × ℚ)) :=
  if st.is_indexed = false then (st.heap, some [])
  else
    let similarities := (st.vectors.getD []).map fun v =>
      L.cos (L.transform (st.fitted.getD []) query) v
    let top_indices := pySliceTo top_k (argsortAsc similarities).reverse
    match collectResults (st.chunkAddrs.map (hget st.heap)) similarities threshold
        top_indices with
    | none => (st.heap, none)
    | some sel =>
      let r := allocCopies st.heap sel
      (r.1, some r.2)

/-- `Retriever._rerank_results` at heap level: scores are computed by
reading the chunk fields through the address; no heap write happens here. -/
def rerankH (heap : List Chunk) (query : List Char) (results : List (ℕ × ℚ)) :
    Option (List (ℕ × ℚ)) :=
  if results.isEmpty then some results
  else
    let query_terms := (pySplitWs (pyLower query)).dedup
    if query_terms.length = 0 then none
    else
      let scored := results.map fun p =>
        let text_lower := pyLower (hget heap p.1).text
        let phrase_bonus : ℚ := if pyIn (pyLower query) text_lower then 1/5 else 0
        let term_matches := (query_terms.filter fun t => pyIn t text_lower).length
        let term_bonus : ℚ := ((term_matches : ℚ) / (query_terms.length : ℚ)) * (1/10)
        let length_factor : ℚ := min (((hget heap p.1).char_count : ℚ) / 1000) 1 * (1/20)
        (p.1, p.2 + phrase_bonus + term_bonus + length_factor)
      some (sSort (fun a b => decide (b.2 ≤ a.2)) scored)

/-- The in-place mutations `chunk['relevance_score'] = score` of
`Retriever.retrieve` lines 55-57, one heap write per returned result. -/
def writeScores (heap : List Chunk) : List (ℕ × ℚ) → List Chunk
  | [] => heap
  | (a, sc) :: rest =>
    writeScores (heap.set a { hget heap a with relevance_score := some sc }) rest

/-- `Retriever.retrieve` at heap level: search (heap copies), document
filter, rerank, truncate, then write `relevance_score` into the returned
cells.  Returns the final heap and the addresses of the returned chunks
(`none` when the Python call would raise). -/
def retrieveH (L : SkLib) (st : HeapStore) (query : List Char)
    (max_results : ℤ) (threshold : ℚ) (filter_document : Option String) :
    List Chunk × Option (List ℕ) :=
  let sr := searchH L st (enhanceQuery query) (max_results * 2) threshold
  match sr.2 with
  | none => (sr.1, none)
  | some results =>
    let results :=
      match filter_document with
      | some d => if d = "" then results
                  else results.filter fun p => decide ((hget sr.1 p.1).document = d)
      | none => results
    match rerankH sr.1 query results with
    | none => (sr.1, none)
    | some reranked =>
      let final := pySliceTo max_results reranked
      (writeScores sr.1 final, some (final.map (·.1)))

/-! ### Concrete fixtures used by witnesses and counterexamples -/

/-- A page of one hundred `a` characters: one paragraph, long enough to pass
the default `MIN_CHUNK_SIZE` of 100. -/
def exPage100 : PageData :=
  { page_number := 1, text := List.replicate 100 'a' }

def exDocA : DocumentData := { file_name := "a.pdf", pages := [exPage100] }

def exDocB : DocumentData := { file_name := "b.pdf", pages := [exPage100] }

/-- Three paragraphs of five characters each (seven with the appended
separator): all well below a `chunk_size` of 10. -/
def exPageText : List Char := "aaaaa\n\naaaaa\n\naaaaa".toList

/-- Two paragraphs, for the C7 witness. -/
def exPageText2 : List Char := "aaaaa\n\naaaaa".toList

def exChunk0 : Chunk :=
  { text := "x".toList
    page_number := 1
    source := "s"
    start_position := 0
    char_count := 1
    word_count := 1
    chunk_id := 0
    document := "doc" }

def exChunk1 : Chunk := { exChunk0 with chunk_id := 1 }

/-- A chunk whose text is the single character `a`. -/
def exChunkA : Chunk :=
  { text := "a".toList
    page_number := 1
    source := "s"
    start_position := 0
    char_count := 1
    word_count := 1 }

/-- A store built from two chunks with identical text (hence identical
similarity to any query under `LHalf`). -/
def exStore : VectorStore := add_chunks LHalf VectorStore.init [exChunk0, exChunk1]

/-- The store state after a successful one-chunk build followed by
`add_chunks([])`: chunks emptied, stale vectors and `is_indexed` retained. -/
def exBugStore : VectorStore :=
  add_chunks LHalf (add_chunks LHalf VectorStore.init [exChunk0]) []

/-- A one-chunk store whose query similarities are all zero. -/
def exZeroStore : VectorStore := add_chunks LZero VectorStore.init [exChunk0]

/-- A heap store: two chunk records at addresses 0 and 1. -/
def exHeapStore : HeapStore :=
  { heap := [exChunk0, exChunk1]
    chunkAddrs := [0, 1]
    vectors := some [[1], [1]]
    fitted := some ["x".toList, "x".toList]
    is_indexed := true }

/-! ### Supporting lemmas -/

theorem pySliceTo_ofNat {α : Type} (k : ℕ) (l : List α) :
    pySliceTo (k : ℤ) l = l.take k := by
  simp [pySliceTo, Int.toNat_ofNat]

theorem pyStrip_length_le (l : List Char) : (pyStrip l).length ≤ l.length := by
  unfold pyStrip
  calc ((l.dropWhile isPySpace).reverse.dropWhile isPySpace).reverse.length
      = ((l.dropWhile isPySpace).reverse.dropWhile isPySpace).length := by
        exact List.length_reverse _
    _ ≤ (l.dropWhile isPySpace).reverse.length :=
        (List.dropWhile_suffix _).sublist.length_le
    _ = (l.dropWhile isPySpace).length := List.length_reverse _
    _ ≤ l.length := (List.dropWhile_suffix _).sublist.length_le

theorem pyTailSlice_length_le (k : ℕ) (hk : k ≠ 0) (l : List Char) :
    (pyTailSlice k l).length ≤ k := by
  unfold pyTailSlice
  simp only [hk, if_false]
  rw [List.length_drop]
  omega

theorem sInsert_perm {α : Type} (before : α → α → Bool) (x : α) (l : List α) :
    (sInsert before x l).Perm (x :: l) := by
  induction l with
  | nil => simp [sInsert]
  | cons y ys ih =>
    unfold sInsert
    by_cases h : before x y
    · simp [h]
    · simp only [h, if_false]
      exact (ih.cons y).trans (List.Perm.swap x y ys)

theorem sSort_perm {α : Type} (before : α → α → Bool) (l : List α) :
    (sSort before l).Perm l := by
  induction l with
  | nil => simp [sSort]
  | cons x xs ih =>
    exact (sInsert_perm before x (sSort before xs)).trans (ih.cons x)

theorem mem_sInsert {α : Type} {before : α → α → Bool} {x a : α} {l : List α} :
    a ∈ sInsert before x l ↔ a = x ∨ a ∈ l := by
  have := (sInsert_perm before x l).mem_iff (a := a)
  simpa using this

theorem mem_sSort {α : Type} {before : α → α → Bool} {a : α} {l : List α} :
    a ∈ sSort before l ↔ a ∈ l :=
  (sSort_perm before l).mem_iff

theorem sInsert_pairwise {α : Type} {before : α → α → Bool}
    (htot : ∀ a b, before a b = true ∨ before b a = true)
    (htrans : ∀ a b c, before a b = true → before b c = true → before a c = true)
    {x : α} {l : List α}
    (hl : l.Pairwise (fun a b => before a b = true)) :
    (sInsert before x l).Pairwise (fun a b => before a b = true) := by
  induction l with
  | nil => simp [sInsert]
  | cons y ys ih =>
    rcases List.pairwise_cons.mp hl with ⟨hy, hys⟩
    unfold sInsert
    by_cases h : before x y
    · simp only [h, if_true]
      refine List.pairwise_cons.mpr ⟨?_, hl⟩
      intro b hb
      rcases List.mem_cons.mp hb with rfl | hb
      · exact h
      · exact htrans x y b h (hy b hb)
    · simp only [h, if_false]
      refine List.pairwise_cons.mpr ⟨?_, ih hys⟩
      intro b hb
      rcases mem_sInsert.mp hb with hbx | hb
      · rw [hbx]
        rcases htot x y with hxy | hyx
        · exact absurd hxy h
        · exact hyx
      · exact hy b hb

theorem sSort_pairwise {α : Type} {before : α → α → Bool}
    (htot : ∀ a b, before a b = true ∨ before b a = true)
    (htrans : ∀ a b c, before a b = true → before b c = true → before a c = true)
    (l : List α) :
    (sSort before l).Pairwise (fun a b => before a b = true) := by
  induction l with
  | nil => simp [sSort]
  | cons x xs ih => exact sInsert_pairwise htot htrans ih

theorem filter_sInsert {α : Type} {before : α → α → Bool} {key : α → ℚ} (s : ℚ)
    (x : α) (l : List α)
    (hx : ∀ y, before x y = false → key y ≠ key x) :
    (sInsert before x l).filter (fun a => decide (key a = s)) =
      if key x = s then x :: l.filter (fun a => decide (key a = s))
      else l.filter (fun a => decide (key a = s)) := by
  induction l with
  | nil =>
    by_cases hs : key x = s <;> simp [sInsert, List.filter, hs]
  | cons y ys ih =>
    unfold sInsert
    by_cases h : before x y
    · by_cases hs : key x = s <;> simp [h, List.filter, hs]
    · simp only [h, Bool.false_eq_true, if_false]
      have hyx : key y ≠ key x := hx y (by simpa using h)
      by_cases hys : key y = s
      · have hxs : key x ≠ s := fun hc => hyx (hys.trans hc.symm)
        simp [List.filter, hys, hxs, ih, hxs]
      · by_cases hxs : key x = s <;> simp [List.filter, hys, hxs, ih]

theorem filter_sSort {α : Type} {before : α → α → Bool} {key : α → ℚ} (s : ℚ)
    (hkey : ∀ x y, before x y = false → key y ≠ key x) (l : List α) :
    (sSort before l).filter (fun a => decide (key a = s)) =
      l.filter (fun a => decide (key a = s)) := by
  induction l with
  | nil => rfl
  | cons x xs ih =>
    unfold sSort
    rw [filter_sInsert s x (sSort before xs) (fun y hy => hkey x y hy), ih]
    by_cases hxs : key x = s <;> simp [List.filter, hxs]

theorem sInsert_congr {α : Type} {b₁ b₂ : α → α → Bool} (x : α) (l : List α)
    (h : ∀ y ∈ l, b₁ x y = b₂ x y) : sInsert b₁ x l = sInsert b₂ x l := by
  induction l with
  | nil => rfl
  | cons y ys ih =>
    unfold sInsert
    rw [h y (List.mem_cons_self y ys)]
    by_cases hb : b₂ x y
    · simp [hb]
    · simp only [hb, if_false]
      rw [ih (fun z hz => h z (List.mem_cons_of_mem y hz))]

theorem sSort_congr_of_pairwise {b₁ b₂ : ℕ → ℕ → Bool} (l : List ℕ)
    (hl : l.Pairwise (· < ·)) (h : ∀ x y : ℕ, x < y → b₁ x y = b₂ x y) :
    sSort b₁ l = sSort b₂ l := by
  induction l with
  | nil => rfl
  | cons x xs ih =>
    rcases List.pairwise_cons.mp hl with ⟨hx, hxs⟩
    unfold sSort
    rw [ih hxs]
    exact sInsert_congr x _ (fun y hy => h x y (hx y (mem_sSort.mp hy)))


theorem collectResults_eq_filterMap (chunks : List Chunk) (sims : List ℚ) (t : ℚ)
    (idxs : List ℕ) (h : ∀ i ∈ idxs, i < chunks.length) :
    collectResults chunks sims t idxs =
      some (idxs.filterMap fun i =>
        if t ≤ sims.getD i 0 then
          some (copyChunk (chunks.getD i default), sims.getD i 0)
        else none) := by
  induction idxs with
  | nil => rfl
  | cons i rest ih =>
    have hi : i < chunks.length := h i (List.mem_cons_self i rest)
    have hrest : ∀ j ∈ rest, j < chunks.length :=
      fun j hj => h j (List.mem_cons_of_mem i hj)
    have hval : chunks[i]? = some chunks[i] := List.getElem?_eq_getElem hi
    have hgetD : chunks.getD i default = chunks[i] := by
      rw [List.getD_eq_getElem?_getD, hval]; rfl
    unfold collectResults
    by_cases ht : t ≤ sims.getD i 0
    · simp only [ht, if_true, hval, ih hrest, List.filterMap_cons, hgetD]
    · simp only [ht, if_false, ih hrest, List.filterMap_cons]

theorem length_filterMap_if_mono {α β : Type} (f : α → β) (keyf : α → ℚ)
    (t₁ t₂ : ℚ) (h : t₁ ≤ t₂) (l : List α) :
    (l.filterMap fun a => if t₂ ≤ keyf a then some (f a) else none).length ≤
    (l.filterMap fun a => if t₁ ≤ keyf a then some (f a) else none).length := by
  induction l with
  | nil => exact le_refl _
  | cons a rest ih =>
    by_cases h2 : t₂ ≤ keyf a
    · have h1 : t₁ ≤ keyf a := le_trans h h2
      simp only [List.filterMap_cons, h1, h2, if_true, List.length_cons]
      omega
    · by_cases h1 : t₁ ≤ keyf a <;>
        simp only [List.filterMap_cons, h1, h2, if_true, if_false, List.length_cons] <;>
        omega

theorem mem_argsortAsc_lt {xs : List ℚ} {i : ℕ} (h : i ∈ argsortAsc xs) :
    i < xs.length := by
  have := mem_sSort.mp h
  exact List.mem_range.mp this

theorem ascLexBefore_total (xs : List ℚ) (i j : ℕ) :
    ascLexBefore xs i j = true ∨ ascLexBefore xs j i = true := by
  simp only [ascLexBefore, decide_eq_true_eq]
  rcases lt_trichotomy (xs.getD i 0) (xs.getD j 0) with hlt | heq | hgt
  · exact Or.inl (Or.inl hlt)
  · rcases Nat.le_total i j with hij | hji
    · exact Or.inl (Or.inr ⟨heq, hij⟩)
    · exact Or.inr (Or.inr ⟨heq.symm, hji⟩)
  · exact Or.inr (Or.inl hgt)

theorem ascLexBefore_trans (xs : List ℚ) (i j k : ℕ) :
    ascLexBefore xs i j = true → ascLexBefore xs j k = true →
    ascLexBefore xs i k = true := by
  simp only [ascLexBefore, decide_eq_true_eq]
  rintro (h₁ | ⟨e₁, l₁⟩) (h₂ | ⟨e₂, l₂⟩)
  · exact Or.inl (h₁.trans h₂)
  · exact Or.inl (e₂ ▸ h₁)
  · exact Or.inl (e₁ ▸ h₂)
  · exact Or.inr ⟨e₁.trans e₂, l₁.trans l₂⟩

theorem descLexBefore_total (xs : List ℚ) (i j : ℕ) :
    descLexBefore xs i j = true ∨ descLexBefore xs j i = true := by
  simp only [descLexBefore, decide_eq_true_eq]
  rcases lt_trichotomy (xs.getD i 0) (xs.getD j 0) with hlt | heq | hgt
  · exact Or.inr (Or.inl hlt)
  · rcases Nat.le_total i j with hij | hji
    · exact Or.inr (Or.inr ⟨heq.symm, hij⟩)
    · exact Or.inl (Or.inr ⟨heq, hji⟩)
  · exact Or.inl (Or.inl hgt)

theorem descLexBefore_trans (xs : List ℚ) (i j k : ℕ) :
    descLexBefore xs i j = true → descLexBefore xs j k = true →
    descLexBefore xs i k = true := by
  simp only [descLexBefore, decide_eq_true_eq]
  rintro (h₁ | ⟨e₁, l₁⟩) (h₂ | ⟨e₂, l₂⟩)
  · exact Or.inl (h₂.trans h₁)
  · exact Or.inl (e₂ ▸ h₁)
  · exact Or.inl (e₁.symm ▸ h₂)
  · exact Or.inr ⟨e₁.trans e₂, l₂.trans l₁⟩

theorem descLexBefore_antisymm (xs : List ℚ) (i j : ℕ) :
    descLexBefore xs i j = true → descLexBefore xs j i = true → i = j := by
  simp only [descLexBefore, decide_eq_true_eq]
  rintro (h₁ | ⟨e₁, l₁⟩) (h₂ | ⟨e₂, l₂⟩)
  · exact absurd (h₁.trans h₂) (lt_irrefl _)
  · exact absurd h₁ (e₂ ▸ lt_irrefl _)
  · exact absurd h₂ (e₁ ▸ lt_irrefl _)
  · omega

theorem argsortAsc_eq_lexSort (xs : List ℚ) :
    argsortAsc xs = sSort (ascLexBefore xs) (List.range xs.length) := by
  unfold argsortAsc
  refine sSort_congr_of_pairwise _ (List.pairwise_lt_range _) ?_
  intro i j hij
  unfold ascLexBefore
  rw [decide_eq_decide]
  constructor
  · intro hle
    rcases lt_or_eq_of_le hle with hlt | heq
    · exact Or.inl hlt
    · exact Or.inr ⟨heq, Nat.le_of_lt hij⟩
  · rintro (hlt | ⟨heq, _⟩)
    · exact le_of_lt hlt
    · exact le_of_eq heq

theorem reverse_argsortAsc (xs : List ℚ) :
    (argsortAsc xs).reverse = specRanked xs := by
  have h1 : (argsortAsc xs).reverse.Pairwise
      (fun i j => descLexBefore xs i j = true) := by
    rw [List.pairwise_reverse, argsortAsc_eq_lexSort]
    refine (sSort_pairwise (ascLexBefore_total xs) (ascLexBefore_trans xs)
      (List.range xs.length)).imp ?_
    intro a b hab
    simp only [ascLexBefore, decide_eq_true_eq] at hab
    simp only [descLexBefore, decide_eq_true_eq]
    rcases hab with hlt | ⟨heq, hle⟩
    · exact Or.inl hlt
    · exact Or.inr ⟨heq.symm, hle⟩
  have h2 : (specRanked xs).Pairwise (fun i j => descLexBefore xs i j = true) :=
    sSort_pairwise (descLexBefore_total xs) (descLexBefore_trans xs) _
  have hperm : (argsortAsc xs).reverse.Perm (specRanked xs) := by
    have p1 : (argsortAsc xs).Perm (List.range xs.length) := sSort_perm _ _
    have p2 : (specRanked xs).Perm (List.range xs.length) := sSort_perm _ _
    exact ((List.reverse_perm _).trans p1).trans p2.symm
  haveI : IsAntisymm ℕ (fun i j => descLexBefore xs i j = true) :=
    ⟨descLexBefore_antisymm xs⟩
  exact List.eq_of_perm_of_sorted hperm h1 h2

theorem createChunk_char_count_le (text : List Char) (pn : ℕ) (src : String)
    (st : ℤ) : (createChunk text pn src st).char_count ≤ text.length :=
  pyStrip_length_le text

theorem chunkPageGo_bound (cs co pn : ℕ) (src : String)
    (paras : List (List Char)) (cur : List Char) (st : ℤ)
    (hco : 0 < co)
    (hp : ∀ p ∈ paras, p.length ≤ cs)
    (hcur : cur.length ≤ cs + co) :
    (∀ c ∈ (chunkPageGo cs co pn src paras cur st).1, c.char_count ≤ cs + co) ∧
    (chunkPageGo cs co pn src paras cur st).2.1.length ≤ cs + co := by
  induction paras generalizing cur st with
  | nil => exact ⟨fun c hc => absurd hc (List.not_mem_nil c), hcur⟩
  | cons para rest ih =>
    have hpara : para.length ≤ cs := hp para (List.mem_cons_self para rest)
    have hrest : ∀ p ∈ rest, p.length ≤ cs :=
      fun p hq => hp p (List.mem_cons_of_mem para hq)
    unfold chunkPageGo
    by_cases hsplit : cs < cur.length + para.length
    · simp only [hsplit, if_true]
      have hnew : (if co < cur.length then pyTailSlice co cur ++ para else para).length
          ≤ cs + co := by
        by_cases hov : co < cur.length
        · simp only [hov, if_true, List.length_append]
          have := pyTailSlice_length_le co (Nat.pos_iff_ne_zero.mp hco) cur
          omega
        · simp only [hov, if_false]
          omega
      have hrec := ih _ (st + (((if co < cur.length then pyTailSlice co cur ++ para
        else para).length : ℤ)) - (co : ℤ)) hrest hnew
      by_cases hne : (pyStrip cur).isEmpty
      · simp only [hne, if_true]
        exact hrec
      · simp only [hne, if_false]
        refine ⟨?_, hrec.2⟩
        intro c hc
        rcases List.mem_cons.mp hc with rfl | hc
        · exact le_trans (createChunk_char_count_le cur pn src st) hcur
        · exact hrec.1 c hc
    · simp only [hsplit, if_false]
      refine ih _ _ hrest ?_
      rw [List.length_append]
      omega

theorem assignIds_map_chunk_id (doc : String) (start : ℕ) (l : List Chunk) :
    (assignIds doc start l).map (·.chunk_id) = List.range' start l.length := by
  induction l generalizing start with
  | nil => rfl
  | cons c rest ih =>
    simp only [assignIds, List.map_cons, List.length_cons, List.range'_succ, ih]

theorem allocCopies_fst (items : List (Chunk × ℚ)) :
    ∀ heap : List Chunk, ∃ ext, (allocCopies heap items).1 = heap ++ ext := by
  induction items with
  | nil => exact fun heap => ⟨[], by simp [allocCopies]⟩
  | cons q rest ih =>
    intro heap
    obtain ⟨c, sc⟩ := q
    obtain ⟨ext, hext⟩ := ih (heap ++ [copyChunk c])
    refine ⟨copyChunk c :: ext, ?_⟩
    simp only [allocCopies, hext, List.append_assoc, List.singleton_append]

theorem allocCopies_addrs_le (items : List (Chunk × ℚ)) :
    ∀ heap : List Chunk, ∀ p ∈ (allocCopies heap items).2, heap.length ≤ p.1 := by
  induction items with
  | nil => intro heap p hp; simp [allocCopies] at hp
  | cons q rest ih =>
    intro heap p hp
    obtain ⟨c, sc⟩ := q
    simp only [allocCopies] at hp
    rcases List.mem_cons.mp hp with rfl | hp
    · exact le_refl _
    · have := ih (heap ++ [copyChunk c]) p hp
      rw [List.length_append] at this
      omega

theorem writeScores_getElem? (n : ℕ) (ws : List (ℕ × ℚ)) :
    ∀ heap : List Chunk, (∀ p ∈ ws, n ≤ p.1) → ∀ a, a < n →
      (writeScores heap ws)[a]? = heap[a]? := by
  induction ws with
  | nil => intro heap _ a _; rfl
  | cons q rest ih =>
    intro heap hws a ha
    obtain ⟨addr, sc⟩ := q
    have haddr : n ≤ addr := hws (addr, sc) (List.mem_cons_self _ rest)
    unfold writeScores
    rw [ih _ (fun p hp => hws p (List.mem_cons_of_mem _ hp)) a ha]
    exact List.getElem?_set_ne (by omega)

theorem assignIds_length (doc : String) (start : ℕ) (l : List Chunk) :
    (assignIds doc start l).length = l.length := by
  induction l generalizing start with
  | nil => rfl
  | cons c rest ih => simp [assignIds, ih]

theorem chunk_document_ids (cs co ms : ℕ) (d : DocumentData) :
    (chunk_document cs co ms d).map (·.chunk_id) =
      List.range (chunk_document cs co ms d).length := by
  unfold chunk_document
  rw [assignIds_map_chunk_id, assignIds_length, List.range_eq_range']

/-! ### Claims -/

/-- C1 (counterexample): `add_chunks` with an empty chunk sequence does not
raise — no `EmptyCorpusError` exists anywhere in the code; `_build_index`
returns silently.  On a fresh store the call returns normally and leaves the
state exactly as it was (not built). -/
theorem C1_counterexample :
    add_chunks LHalf VectorStore.init [] = VectorStore.init
    ∧ (add_chunks LHalf VectorStore.init []).is_indexed = false := by
  exact ⟨rfl, rfl⟩

/-- C1 (amended): calling `add_chunks` with an empty chunk sequence on a
not-yet-built store raises no error and leaves the index in the not-built
state; every subsequent `search` on that unbuilt index returns the empty
sequence rather than an error. -/
theorem C1_theorem (L : SkLib) (s : VectorStore) (hs : s.is_indexed = false) :
    (add_chunks L s []).is_indexed = false
    ∧ ∀ query top_k threshold,
        search L (add_chunks L s []) query top_k threshold = some [] := by
  have hadd : add_chunks L s [] = { s with chunks := [] } := by
    unfold add_chunks buildIndex
    simp
  refine ⟨by rw [hadd]; exact hs, ?_⟩
  intro query top_k threshold
  rw [hadd]
  unfold search
  simp [hs]

/-- C1 witness: the amended claim at the fresh store. -/
theorem C1_witness :
    VectorStore.init.is_indexed = false
    ∧ (add_chunks LHalf VectorStore.init []).is_indexed = false
    ∧ search LHalf (add_chunks LHalf VectorStore.init []) "q".toList 5 0
        = some [] :=
  ⟨rfl, (C1_theorem LHalf VectorStore.init rfl).1,
    (C1_theorem LHalf VectorStore.init rfl).2 "q".toList 5 0⟩

/-- C2 (counterexample): two one-page documents that each produce one chunk.
`chunk_document` restarts its id counter at 0 for every document, so the
corpus-wide id sequence is `[0, 0]`: not unique and not monotonically
increasing across the corpus. -/
theorem C2_counterexample :
    (chunk_documents [exDocA, exDocB]).map (·.chunk_id) = [0, 0]
    ∧ ¬ List.Pairwise (· ≠ ·)
        ((chunk_documents [exDocA, exDocB]).map (·.chunk_id)) :=
  ⟨by decide, by decide⟩

/-- C2 (amended): chunk ids are unique and monotonically increasing in
emission order *within each document* (they are not reset per page), but the
counter restarts at 0 for each document, so the corpus id sequence is the
concatenation of one `0..n_d-1` block per document. -/
theorem C2_theorem (docs : List DocumentData) :
    ((chunk_documents docs).map (·.chunk_id) =
      (docs.map fun d =>
        List.range (chunk_document CHUNK_SIZE CHUNK_OVERLAP MIN_CHUNK_SIZE d).length).flatten)
    ∧ ∀ cs co ms d, List.Pairwise (· < ·)
        ((chunk_document cs co ms d).map (·.chunk_id)) := by
  constructor
  · induction docs with
    | nil => rfl
    | cons d rest ih =>
      simp only [chunk_documents, List.map_cons, List.flatten_cons,
        List.map_append] at ih ⊢
      rw [chunk_document_ids, ih]
  · intro cs co ms d
    rw [chunk_document_ids]
    exact List.pairwise_lt_range _

section
attribute [local semireducible] Rat.add Rat.mul Rat.sub Rat.inv Rat.ofScientific

/-- C3 (code bug): after a successful one-chunk build, `add_chunks([])`
leaves the store with zero chunks but the stale one-row vector matrix and
`is_indexed = True`, violating the `vectors.length == chunks.length`
invariant; a subsequent `search` call then raises `IndexError`
(`self.chunks[idx]` on an empty list). -/
theorem C3_theorem :
    exBugStore.chunks.length = 0
    ∧ (exBugStore.vectors.getD []).length = 1
    ∧ exBugStore.is_indexed = true
    ∧ search LHalf exBugStore "q".toList 5 0 = none := by
  refine ⟨by decide, by decide, by decide, ?_⟩
  decide

/-- C4 (counterexample): `retrieve` performs no `max_results` validation; at
`max_results = 0` it returns the empty sequence instead of failing with
`InvalidArgumentError` (which exists nowhere in the code). -/
theorem C4_counterexample :
    retrieve LHalf exStore "q".toList 0 (3/10) none = some [] := by
  decide

end

/-- C4 (amended): for every store, query, threshold and document filter, a
`retrieve` call with `max_results = 0` raises no error and returns the empty
result sequence (the code never validates `max_results`). -/
theorem C4_theorem (L : SkLib) (s : VectorStore) (query : List Char) (t : ℚ)
    (fd : Option String) :
    retrieve L s query 0 t fd = some [] := by
  have hsearch : search L s (enhanceQuery query) (0 * 2) t = some [] := by
    unfold search
    by_cases hidx : s.is_indexed = false
    · simp [hidx]
    · have hslice : pySliceTo (0 * 2)
          (argsortAsc (simsOf L s (enhanceQuery query))).reverse = [] := by
        simp [pySliceTo]
      simp only [hidx, if_false, hslice]
      rfl
  unfold retrieve
  rw [hsearch]
  cases fd with
  | none => simp [rerankResults, pySliceTo]
  | some d =>
    by_cases hd : d = "" <;> simp [hd, rerankResults, pySliceTo]

/-- C7 (counterexample): with `chunk_overlap = 0`, Python's `s[-0:]` slice
re-seeds the new buffer with the *entire* closed buffer, so a page whose
paragraphs are all well under `chunk_size` still yields chunks with
`char_count > chunk_size + chunk_overlap`. -/
theorem C7_counterexample :
    (∀ p ∈ splitIntoParagraphs exPageText, p.length ≤ 10)
    ∧ ∃ c ∈ chunkPage 10 0 0 exPageText 1 "d", 10 + 0 < c.char_count :=
  ⟨by decide, by decide⟩

/-- C7 (amended): provided `chunk_overlap ≥ 1`, for every page text whose
retained paragraphs (with their appended separators) each have length at
most `chunk_size`, every chunk emitted for that page has
`char_count ≤ chunk_size + chunk_overlap`. -/
theorem C7_theorem (cs co ms pn : ℕ) (src : String) (text : List Char)
    (hco : 0 < co)
    (hp : ∀ p ∈ splitIntoParagraphs text, p.length ≤ cs) :
    ∀ c ∈ chunkPage cs co ms text pn src, c.char_count ≤ cs + co := by
  intro c hc
  unfold chunkPage at hc
  have h := chunkPageGo_bound cs co pn src (splitIntoParagraphs text) [] 0 hco hp
    (by simp)
  rcases List.mem_append.mp hc with hc | hc
  · exact h.1 c hc
  · by_cases hms : ms ≤ (pyStrip (chunkPageGo cs co pn src
        (splitIntoParagraphs text) [] 0).2.1).length
    · simp only [hms, if_true, List.mem_singleton] at hc
      subst hc
      exact le_trans (createChunk_char_count_le _ pn src _) h.2
    · simp only [hms, if_false] at hc
      exact absurd hc (List.not_mem_nil c)

/-- C7 witness: the amended bound at a concrete page. -/
theorem C7_witness :
    (0 < 3 ∧ ∀ p ∈ splitIntoParagraphs exPageText2, p.length ≤ 10)
    ∧ ∀ c ∈ chunkPage 10 3 0 exPageText2 1 "d", c.char_count ≤ 10 + 3 :=
  ⟨⟨by decide, by decide⟩,
    C7_theorem 10 3 0 1 "d" exPageText2 (by decide) (by decide)⟩

section
attribute [local semireducible] Rat.add Rat.mul Rat.sub Rat.inv Rat.ofScientific

/-- C5 (counterexample): two stored chunks with identical text have
identical similarity to any query, and `np.argsort(...)[::-1]` then yields
the *higher* position first: the result order is `chunk_id` descending, not
ascending as claimed. -/
theorem C5_counterexample :
    simsOf LHalf exStore "q".toList = [1/2, 1/2]
    ∧ (search LHalf exStore "q".toList 5 0).map (List.map fun p => p.1.chunk_id)
        = some [1, 0] :=
  ⟨by decide, by decide⟩

end

/-- C5 (amended): for every built index whose vector rows match its chunks,
every query, nonnegative `top_k` and threshold, `search` returns exactly
those chunks among the `top_k` highest cosine similarities whose similarity
is ≥ threshold, ordered by similarity descending with equal-similarity ties
broken by original chunk position *descending* (`specSearch`). -/
theorem C5_theorem (L : SkLib) (s : VectorStore) (query : List Char) (k : ℕ)
    (t : ℚ)
    (hidx : s.is_indexed = true)
    (hwf : (s.vectors.getD []).length = s.chunks.length) :
    search L s query (k : ℤ) t =
      some (specSearch s.chunks (simsOf L s query) k t) := by
  have hlen : (simsOf L s query).length = s.chunks.length := by
    unfold simsOf
    rw [List.length_map]
    exact hwf
  unfold search
  simp only [hidx, Bool.true_eq_false, if_false]
  rw [pySliceTo_ofNat, reverse_argsortAsc]
  rw [collectResults_eq_filterMap]
  · rfl
  · intro i hi
    have h1 : i ∈ specRanked (simsOf L s query) := List.mem_of_mem_take hi
    have h2 : i < (simsOf L s query).length :=
      List.mem_range.mp (mem_sSort.mp h1)
    omega

section
attribute [local semireducible] Rat.add Rat.mul Rat.sub Rat.inv Rat.ofScientific

/-- C5 witness: the amended search characterisation at a concrete store. -/
theorem C5_witness :
    (exStore.is_indexed = true
      ∧ (exStore.vectors.getD []).length = exStore.chunks.length)
    ∧ search LHalf exStore "q".toList ((5 : ℕ) : ℤ) 0 =
        some (specSearch exStore.chunks (simsOf LHalf exStore "q".toList) 5 0) :=
  ⟨⟨by decide, by decide⟩,
    C5_theorem LHalf exStore "q".toList 5 0 (by decide) (by decide)⟩

end

/-- C8 (confirmed): for a fixed built store, query and `top_k`, raising the
threshold never increases the result count — the candidate ranking is fixed
and the threshold only filters it. -/
theorem C8_theorem (L : SkLib) (s : VectorStore) (query : List Char) (k : ℤ)
    (t₁ t₂ : ℚ)
    (hwf : (s.vectors.getD []).length = s.chunks.length)
    (ht : t₁ ≤ t₂) :
    ∃ r₁ r₂, search L s query k t₁ = some r₁ ∧ search L s query k t₂ = some r₂
      ∧ r₂.length ≤ r₁.length := by
  by_cases hidx : s.is_indexed = false
  · refine ⟨[], [], ?_, ?_, le_refl _⟩ <;> simp [search, hidx]
  · have hlen : (simsOf L s query).length = s.chunks.length := by
      unfold simsOf
      rw [List.length_map]
      exact hwf
    have hval : ∀ i ∈ pySliceTo k (argsortAsc (simsOf L s query)).reverse,
        i < s.chunks.length := by
      intro i hi
      have h1 : i ∈ (argsortAsc (simsOf L s query)).reverse :=
        List.mem_of_mem_take hi
      have h2 := mem_argsortAsc_lt (List.mem_reverse.mp h1)
      omega
    have e₁ := collectResults_eq_filterMap s.chunks (simsOf L s query) t₁ _ hval
    have e₂ := collectResults_eq_filterMap s.chunks (simsOf L s query) t₂ _ hval
    refine ⟨(pySliceTo k (argsortAsc (simsOf L s query)).reverse).filterMap
        (fun i => if t₁ ≤ (simsOf L s query).getD i 0 then
          some (copyChunk (s.chunks.getD i default), (simsOf L s query).getD i 0)
        else none),
      (pySliceTo k (argsortAsc (simsOf L s query)).reverse).filterMap
        (fun i => if t₂ ≤ (simsOf L s query).getD i 0 then
          some (copyChunk (s.chunks.getD i default), (simsOf L s query).getD i 0)
        else none), ?_, ?_, ?_⟩
    · unfold search
      simp only [hidx, if_false]
      exact e₁
    · unfold search
      simp only [hidx, if_false]
      exact e₂
    · exact length_filterMap_if_mono
        (fun i => (copyChunk (s.chunks.getD i default), (simsOf L s query).getD i 0))
        (fun i => (simsOf L s query).getD i 0) t₁ t₂ ht _

section
attribute [local semireducible] Rat.add Rat.mul Rat.sub Rat.inv Rat.ofScientific

/-- C8 witness: threshold monotonicity at a concrete store. -/
theorem C8_witness :
    ((exStore.vectors.getD []).length = exStore.chunks.length ∧ (0 : ℚ) ≤ 1)
    ∧ ∃ r₁ r₂, search LHalf exStore "q".toList 5 0 = some r₁
        ∧ search LHalf exStore "q".toList 5 1 = some r₂
        ∧ r₂.length ≤ r₁.length :=
  ⟨⟨by decide, by decide⟩,
    C8_theorem LHalf exStore "q".toList 5 0 1 (by decide) (by decide)⟩

end

theorem rerank_score_spec (query : List Char) (c : Chunk) (base : ℚ) :
    base + (if pyIn (pyLower query) (pyLower c.text) then (1:ℚ)/5 else 0)
      + (((((pySplitWs (pyLower query)).dedup.filter fun t =>
            pyIn t (pyLower c.text)).length : ℚ)
          / (((pySplitWs (pyLower query)).dedup.length : ℚ))) * (1/10))
      + min ((c.char_count : ℚ) / 1000) 1 * (1/20)
    = specFinalScoreDistinct query c base := by
  unfold specFinalScoreDistinct specPhraseBonus specTermBonusDistinct specLengthFactor
  ring

section
attribute [local semireducible] Rat.add Rat.mul Rat.sub Rat.inv Rat.ofScientific

/-- C6 (counterexample): for the query `"a a b"` against a chunk whose text
is `"a"`, the code scores with the *set* of query terms (1 of 2 distinct
terms match, bonus 1/20), while the claim's fraction over the
whitespace-split terms (2 of 3 with multiplicity) would give 1/15: the
computed final score differs from the claim's formula. -/
theorem C6_counterexample :
    rerankResults "a a b".toList [(exChunkA, 0)]
      = some [(exChunkA, 1/20 + 1/20000)]
    ∧ specFinalScoreAll "a a b".toList exChunkA 0 ≠ 1/20 + 1/20000 :=
  ⟨by decide, by decide⟩

end

/-- C6 (amended): for every candidate list and query with at least one
whitespace-delimited term, reranking scores each candidate
`base + phrase_bonus + term_bonus + length_factor` where the term bonus is
0.1 times the fraction of *distinct* lower-cased query terms occurring in
the chunk text (`specFinalScoreDistinct`), and the output is the stable
descending reordering of those scored candidates: a permutation, sorted by
final score descending, in which candidates with equal scores keep their
original relative order. -/
theorem C6_theorem (query : List Char) (results : List (Chunk × ℚ))
    (hq : pySplitWs (pyLower query) ≠ []) :
    ∃ out, rerankResults query results = some out
      ∧ out.Perm (results.map fun p => (p.1, specFinalScoreDistinct query p.1 p.2))
      ∧ out.Pairwise (fun a b => b.2 ≤ a.2)
      ∧ ∀ sc : ℚ, out.filter (fun p => decide (p.2 = sc)) =
          (results.map fun p => (p.1, specFinalScoreDistinct query p.1 p.2)).filter
            (fun p => decide (p.2 = sc)) := by
  have hterms : ¬ ((pySplitWs (pyLower query)).dedup.length = 0) := by
    intro h0
    exact hq ((List.dedup_eq_nil _).mp (List.length_eq_zero.mp h0))
  by_cases hres : results.isEmpty
  · have hnil : results = [] := List.isEmpty_iff.mp hres
    subst hnil
    exact ⟨[], by simp [rerankResults], List.Perm.refl _, List.Pairwise.nil,
      fun sc => rfl⟩
  · have htot : ∀ a b : Chunk × ℚ,
        (decide (b.2 ≤ a.2)) = true ∨ (decide (a.2 ≤ b.2)) = true := by
      intro a b
      rcases le_total b.2 a.2 with h | h
      · exact Or.inl (decide_eq_true h)
      · exact Or.inr (decide_eq_true h)
    have htrans : ∀ a b c : Chunk × ℚ,
        (decide (b.2 ≤ a.2)) = true → (decide (c.2 ≤ b.2)) = true →
        (decide (c.2 ≤ a.2)) = true := by
      intro a b c h₁ h₂
      exact decide_eq_true (le_trans (of_decide_eq_true h₂) (of_decide_eq_true h₁))
    have hmap : (results.map fun p => (p.1, p.2
        + (if pyIn (pyLower query) (pyLower p.1.text) then (1:ℚ)/5 else 0)
        + (((((pySplitWs (pyLower query)).dedup.filter fun t =>
              pyIn t (pyLower p.1.text)).length : ℚ)
            / (((pySplitWs (pyLower query)).dedup.length : ℚ))) * (1/10))
        + min ((p.1.char_count : ℚ) / 1000) 1 * (1/20)))
        = results.map fun p => (p.1, specFinalScoreDistinct query p.1 p.2) := by
      refine List.map_congr_left ?_
      intro p _
      exact congrArg (Prod.mk p.1) (rerank_score_spec query p.1 p.2)
    refine ⟨sSort (fun a b => decide (b.2 ≤ a.2))
        (results.map fun p => (p.1, specFinalScoreDistinct query p.1 p.2)),
      ?_, ?_, ?_, ?_⟩
    · unfold rerankResults
      simp only [hres, Bool.false_eq_true, if_false, hterms, ite_false]
      rw [hmap]
    · exact sSort_perm _ _
    · refine ((sSort_pairwise htot htrans _).imp ?_)
      intro a b hab
      exact of_decide_eq_true hab
    · intro sc
      exact @filter_sSort (Chunk × ℚ) (fun a b => decide (b.2 ≤ a.2))
        (fun p => p.2) sc
        (by
          intro x y hxy
          have hnot : ¬ (y.2 ≤ x.2) := by simpa using hxy
          exact ne_of_gt (lt_of_not_le hnot)) _

section
attribute [local semireducible] Rat.add Rat.mul Rat.sub Rat.inv Rat.ofScientific

/-- C6 witness: the amended rerank characterisation at a concrete input. -/
theorem C6_witness :
    (pySplitWs (pyLower "a".toList) ≠ [])
    ∧ ∃ out, rerankResults "a".toList [(exChunkA, 0)] = some out
      ∧ out.Perm ([(exChunkA, (0:ℚ))].map fun p =>
          (p.1, specFinalScoreDistinct "a".toList p.1 p.2))
      ∧ out.Pairwise (fun a b => b.2 ≤ a.2)
      ∧ ∀ sc : ℚ, out.filter (fun p => decide (p.2 = sc)) =
          ([(exChunkA, (0:ℚ))].map fun p =>
            (p.1, specFinalScoreDistinct "a".toList p.1 p.2)).filter
              (fun p => decide (p.2 = sc)) :=
  ⟨by decide, C6_theorem "a".toList [(exChunkA, 0)] (by decide)⟩

/-- C10 (confirmed): with an empty query (zero whitespace-delimited terms)
and threshold 0 against a built one-chunk index, the search stage still
returns a candidate (similarity 0 passes the `similarity >= 0` check), and
`_rerank_results` then divides by `len(query_terms) = 0`: `retrieve` raises
`ZeroDivisionError` instead of returning a value. -/
theorem C10_theorem :
    search LZero exZeroStore (enhanceQuery []) (5 * 2) 0 = some [(exChunk0, 0)]
    ∧ retrieve LZero exZeroStore [] 5 0 none = none :=
  ⟨by decide, by decide⟩

end

theorem rerankH_addrs (heap : List Chunk) (query : List Char)
    (l : List (ℕ × ℚ)) (n : ℕ) (hl : ∀ p ∈ l, n ≤ p.1) :
    ∀ rr, rerankH heap query l = some rr → ∀ p ∈ rr, n ≤ p.1 := by
  intro rr hrr p hp
  unfold rerankH at hrr
  by_cases he : l.isEmpty = true
  · simp only [he, if_true] at hrr
    cases hrr
    exact hl p hp
  · simp only [he, Bool.false_eq_true, if_false] at hrr
    by_cases ht : ((pySplitWs (pyLower query)).dedup).length = 0
    · simp only [ht, ite_true] at hrr
      exact absurd hrr (by simp)
    · simp only [ht, ite_false] at hrr
      cases hrr
      obtain ⟨q, hq, hfq⟩ := List.mem_map.mp (mem_sSort.mp hp)
      rw [← hfq]
      exact hl q hq

theorem searchH_cases (L : SkLib) (st : HeapStore) (q : List Char) (tk : ℤ)
    (t : ℚ) :
    (∃ ext, (searchH L st q tk t).1 = st.heap ++ ext)
    ∧ ∀ res, (searchH L st q tk t).2 = some res →
        ∀ p ∈ res, st.heap.length ≤ p.1 := by
  unfold searchH
  by_cases hidx : st.is_indexed = false
  · simp only [hidx, if_true]
    refine ⟨⟨[], by simp⟩, ?_⟩
    rintro res hres p hp
    simp only [Option.some.injEq] at hres
    subst hres
    exact absurd hp (List.not_mem_nil p)
  · have htrue : st.is_indexed = true := by
      cases h : st.is_indexed
      · exact absurd h hidx
      · rfl
    simp only [htrue, Bool.true_eq_false, if_false]
    cases hcol : collectResults (st.chunkAddrs.map (hget st.heap))
        ((st.vectors.getD []).map fun v =>
          L.cos (L.transform (st.fitted.getD []) q) v) t
        (pySliceTo tk (argsortAsc ((st.vectors.getD []).map fun v =>
          L.cos (L.transform (st.fitted.getD []) q) v)).reverse) with
    | none =>
      refine ⟨⟨[], by simp⟩, ?_⟩
      rintro res hres
      exact absurd hres (by simp)
    | some sel =>
      exact ⟨allocCopies_fst sel st.heap, fun res hres p hp => by
        simp only [Option.some.injEq] at hres
        subst hres
        exact allocCopies_addrs_le sel st.heap p hp⟩

theorem retrieveH_frame (L : SkLib) (st : HeapStore) (query : List Char)
    (mr : ℤ) (t : ℚ) (fd : Option String) :
    ∀ a, a < st.heap.length →
      (retrieveH L st query mr t fd).1[a]? = st.heap[a]? := by
  intro a ha
  obtain ⟨⟨ext, hext⟩, haddrs⟩ :=
    searchH_cases L st (enhanceQuery query) (mr * 2) t
  have happend :
      (searchH L st (enhanceQuery query) (mr * 2) t).1[a]? = st.heap[a]? := by
    rw [hext]
    exact List.getElem?_append_left ha
  unfold retrieveH
  dsimp only
  cases hres : (searchH L st (enhanceQuery query) (mr * 2) t).2 with
  | none => exact happend
  | some results =>
    have hressup : ∀ p ∈ results, st.heap.length ≤ p.1 := haddrs results hres
    cases fd with
    | none =>
      dsimp only
      cases hrr : rerankH (searchH L st (enhanceQuery query) (mr * 2) t).1
          query results with
      | none => exact happend
      | some reranked =>
        have hmem : ∀ p ∈ pySliceTo mr reranked, st.heap.length ≤ p.1 := by
          intro p hp
          exact rerankH_addrs _ query _ st.heap.length hressup reranked hrr p
            (List.mem_of_mem_take hp)
        rw [writeScores_getElem? st.heap.length _ _ hmem a ha]
        exact happend
    | some d =>
      dsimp only
      by_cases hd : d = ""
      · simp only [hd, ite_true]
        cases hrr : rerankH (searchH L st (enhanceQuery query) (mr * 2) t).1
            query results with
        | none => exact happend
        | some reranked =>
          have hmem : ∀ p ∈ pySliceTo mr reranked, st.heap.length ≤ p.1 := by
            intro p hp
            exact rerankH_addrs _ query _ st.heap.length hressup reranked hrr p
              (List.mem_of_mem_take hp)
          rw [writeScores_getElem? st.heap.length _ _ hmem a ha]
          exact happend
      · simp only [hd, ite_false]
        have hfsup : ∀ p ∈ results.filter (fun p =>
            decide ((hget (searchH L st (enhanceQuery query) (mr * 2) t).1
              p.1).document = d)), st.heap.length ≤ p.1 :=
          fun p hp => hressup p (List.mem_of_mem_filter hp)
        cases hrr : rerankH (searchH L st (enhanceQuery query) (mr * 2) t).1
            query (results.filter (fun p =>
              decide ((hget (searchH L st (enhanceQuery query) (mr * 2) t).1
                p.1).document = d))) with
        | none => exact happend
        | some reranked =>
          have hmem : ∀ p ∈ pySliceTo mr reranked, st.heap.length ≤ p.1 := by
            intro p hp
            exact rerankH_addrs _ query _ st.heap.length hfsup reranked hrr p
              (List.mem_of_mem_take hp)
          rw [writeScores_getElem? st.heap.length _ _ hmem a ha]
          exact happend

/-- C9 (confirmed): every chunk returned by `search` is a `.copy()` of the
stored dict, so the `relevance_score` mutations `retrieve` performs on its
results leave the store's chunk collection unchanged, field for field: after
any `retrieve` call, every stored chunk cell of the heap reads back exactly
as before. -/
theorem C9_theorem (L : SkLib) (st : HeapStore) (query : List Char)
    (mr : ℤ) (t : ℚ) (fd : Option String)
    (hv : ∀ a ∈ st.chunkAddrs, a < st.heap.length) :
    ∀ a ∈ st.chunkAddrs,
      (retrieveH L st query mr t fd).1[a]? = st.heap[a]? :=
  fun a ha => retrieveH_frame L st query mr t fd a (hv a ha)

/-- C9 witness: the frame property at a concrete two-chunk heap store. -/
theorem C9_witness :
    (∀ a ∈ exHeapStore.chunkAddrs, a < exHeapStore.heap.length)
    ∧ ∀ a ∈ exHeapStore.chunkAddrs,
        (retrieveH LHalf exHeapStore "q".toList 5 0 none).1[a]?
          = exHeapStore.heap[a]? :=
  ⟨by decide, C9_theorem LHalf exHeapStore "q".toList 5 0 none (by decide)⟩

end DocIntel
